import Mathlib

set_option maxRecDepth 8192

/-
Verification of scripts/convert_tools_docs.py.

The script is embedded shallowly: Python strings become `List Char`, the
Python string builtins used by the script (strip, split, startswith,
replace, capitalize, join) are modelled as executable Lean functions on
`List Char`, and the filesystem loop of convert_md_to_mdx becomes a pure
function from a list of (filename, content) pairs to a list of
(relative output path, rendered text) pairs.
-/

/-- Python whitespace test: the characters removed by str.strip and
str.lstrip / str.rstrip, namely space, tab, newline, carriage return,
vertical tab and form feed. -/
def isPyWs (c : Char) : Bool :=
  decide (c = ' ' ∨ c = '\t' ∨ c = '\n' ∨ c = '\r' ∨ c = Char.ofNat 11 ∨ c = Char.ofNat 12)

/-- Drop leading Python whitespace (models str.lstrip()). -/
def trimFront : List Char → List Char
  | [] => []
  | c :: cs => if isPyWs c then trimFront cs else c :: cs

/-- Drop trailing Python whitespace (models str.rstrip()). -/
def trimBack : List Char → List Char
  | [] => []
  | c :: cs =>
    match trimBack cs with
    | [] => if isPyWs c then [] else [c]
    | m :: ms => c :: m :: ms

/-- Models Python str.strip(): remove leading and trailing whitespace. -/
def pyStrip (s : List Char) : List Char := trimBack (trimFront s)

/-- Models Python s.split("\n"): split at every newline, keeping empty
pieces, so the result is always non-empty. -/
def splitNl : List Char → List (List Char)
  | [] => [[]]
  | c :: cs =>
    if c = '\n' then [] :: splitNl cs
    else
      match splitNl cs with
      | [] => [[c]]
      | l :: ls => (c :: l) :: ls

/-- If `p` leads `s`, return the remainder of `s` after `p`. -/
def chopLead : List Char → List Char → Option (List Char)
  | [], s => some s
  | _ :: _, [] => none
  | p :: ps, c :: cs => if p = c then chopLead ps cs else none

/-- Models Python s.startswith(p). -/
def pyStartsWith (p s : List Char) : Bool := (chopLead p s).isSome

/-- Models the Python call s.replace(".md", "") appearing in
extract_title and determine_category: remove every (leftmost-first,
non-overlapping) occurrence of the three characters ".md". -/
def replaceMdEmpty : List Char → List Char
  | [] => []
  | [a] => [a]
  | [a, b] => [a, b]
  | a :: b :: c :: rest =>
    if a = '.' ∧ b = 'm' ∧ c = 'd' then replaceMdEmpty rest
    else a :: replaceMdEmpty (b :: c :: rest)

/-- Models Python s.replace(a, b) for single-character a and b, as used
for underscores → spaces and spaces → hyphens. -/
def replaceChar (a b : Char) : List Char → List Char
  | [] => []
  | c :: cs => (if c = a then b else c) :: replaceChar a b cs

/-- Helper for `pySplitWs`: accumulate the current word (reversed). -/
def pySplitWsAux : List Char → List Char → List (List Char)
  | acc, [] => if acc.isEmpty then [] else [acc.reverse]
  | acc, c :: cs =>
    if isPyWs c then
      if acc.isEmpty then pySplitWsAux [] cs else acc.reverse :: pySplitWsAux [] cs
    else pySplitWsAux (c :: acc) cs

/-- Models Python s.split() with no argument: split on runs of
whitespace, discarding empty words. -/
def pySplitWs (s : List Char) : List (List Char) := pySplitWsAux [] s

/-- Models Python word.capitalize(): first character uppercased, all
remaining characters lowercased. -/
def pyCapitalize : List Char → List Char
  | [] => []
  | c :: cs => c.toUpper :: cs.map Char.toLower

/-- Models pathlib `Path(name).stem` search: the name up to (excluding)
the last dot, provided that dot is neither the first nor the last
character; `none` when the name has no such dot. -/
def stemAux : List Char → Option (List Char)
  | [] => none
  | c :: cs =>
    match stemAux cs with
    | some r => some (c :: r)
    | none => if c = '.' ∧ cs ≠ [] then some [] else none

/-- Models pathlib `Path(name).stem`: drop the final extension; a dot at
position 0 (hidden files like ".md") or a missing dot leaves the name
unchanged. -/
def pathStem (name : List Char) : List Char :=
  match stemAux name with
  | some r => if r = [] then name else r
  | none => name

/-- Models the glob pattern "*.md" used by convert_md_to_mdx: the
filename ends with ".md". -/
def endsWithMd (name : List Char) : Bool := pyStartsWith "dm.".data name.reverse

/-- IGNORE_FILES from the script. -/
def IGNORE_FILES : List (List Char) := ["kill_bash.md".data, "remotion.md".data]

/-- EXCLUDED_TOOLS from the script. -/
def EXCLUDED_TOOLS : List (List Char) := ["todo_write_cc.md".data, "web_search.md".data, "bash_output.md".data]

/-- The result of MDX_TEMPLATE.render(title=..., description=...,
category=..., content=...): the fixed Jinja2 template with the four
slots substituted verbatim. -/
def MDX_TEMPLATE_render (title description category content : List Char) : List Char :=
  "---\ntitle: ".data ++ title ++
  "\ndescription: ".data ++ description ++
  "\ncategory: ".data ++ category ++
  "\n---\n\n## Tool Description\n\n```\n".data ++ content ++ "\n```".data

/-- extract_title from the script: remove ".md", underscores to spaces,
then capitalize each whitespace-separated word and join with spaces. -/
def extract_title (filename : List Char) : List Char :=
  let title := replaceChar '_' ' ' (replaceMdEmpty filename)
  List.intercalate " ".data ((pySplitWs title).map pyCapitalize)

/-- The fallback description returned by extract_description when no
line passes the filters. -/
def fallbackDescription : List Char := "Tool documentation and usage guide".data

/-- The skip test of the loop in extract_description: after stripping
the line, skip it when it is empty, starts with "#", or is shorter than
20 characters. -/
def lineSkipped (raw : List Char) : Bool :=
  let line := pyStrip raw
  line.isEmpty || pyStartsWith "#".data line || decide (line.length < 20)

/-- The bullet-marker cleanup of extract_description: drop a leading
"- " or "* " from the (already stripped) line. -/
def bulletStripped (line : List Char) : List Char :=
  if pyStartsWith "- ".data line then line.drop 2
  else if pyStartsWith "* ".data line then line.drop 2
  else line

/-- The tail of the loop body of extract_description: strip the bullet
marker, re-strip, and truncate to 147 characters plus "..." when longer
than 150. -/
def cleanDesc (line : List Char) : List Char :=
  let description := pyStrip (bulletStripped line)
  if 150 < description.length then description.take 147 ++ "...".data else description

/-- The line loop of extract_description: return the cleaned form of
the first line passing the filters, else the fallback. -/
def descLoop : List (List Char) → List Char
  | [] => fallbackDescription
  | raw :: rest => if lineSkipped raw then descLoop rest else cleanDesc (pyStrip raw)

/-- extract_description from the script: content.strip().split("\n"),
then the first-substantial-line loop. -/
def extract_description (content : List Char) : List Char :=
  descLoop (splitNl (pyStrip content))

/-- app_tools from determine_category. -/
def app_tools : List (List Char) := ["blender".data, "pixelmator".data, "notes".data]

/-- determine_category from the script; the content argument is
accepted and never inspected, as in the source. -/
def determine_category (filename content : List Char) : List Char :=
  let base_name := replaceMdEmpty filename
  if base_name ∈ app_tools then "App Tools".data else "System Tools".data

/-- The category-folder computation of convert_md_to_mdx:
category.lower().replace(" ", "-"). -/
def categoryFolder (category : List Char) : List Char :=
  replaceChar ' ' '-' (category.map Char.toLower)

/-- The per-file body of the loop in convert_md_to_mdx: skip a filename
on either list, otherwise produce the relative output path
category_folder/stem.mdx together with the rendered text. -/
def convertFile (name content : List Char) : Option (List Char × List Char) :=
  if name ∈ IGNORE_FILES then none
  else if name ∈ EXCLUDED_TOOLS then none
  else
    let title := extract_title name
    let description := extract_description content
    let category := determine_category name content
    let mdx_content := MDX_TEMPLATE_render title description category content
    let category_folder := categoryFolder category
    let mdx_filename := pathStem name ++ ".mdx".data
    some (category_folder ++ '/' :: mdx_filename, mdx_content)

/-- convert_md_to_mdx from the script, over a model of the source
directory as a list of (filename, content) pairs: glob "*.md", then the
skip/convert loop; the result lists (relative output path, rendered
text) in processing order. -/
def convert_md_to_mdx (files : List (List Char × List Char)) : List (List Char × List Char) :=
  (files.filter (fun f => endsWithMd f.1)).filterMap (fun f => convertFile f.1 f.2)

/-- Every character of the list is Python whitespace. -/
def allWs (l : List Char) : Bool := l.all isPyWs

/-- Replace the empty line list (impossible output of splitNl) by the
single empty line, so that lemmas about splitNl compose. -/
def padNil (L : List (List Char)) : List (List Char) := if L = [] then [[]] else L

/-- The effect of stripping leading whole-string whitespace on the line
list: drop leading all-whitespace lines and left-trim the first kept
line. -/
def trimLinesFront : List (List Char) → List (List Char)
  | [] => []
  | l :: ls => if allWs l then trimLinesFront ls else trimFront l :: ls

/-- The effect of stripping trailing whole-string whitespace on the
line list: drop trailing all-whitespace lines and right-trim the last
kept line. -/
def trimLinesBack : List (List Char) → List (List Char)
  | [] => []
  | l :: ls =>
    match trimLinesBack ls with
    | [] => if allWs l then [] else [trimBack l]
    | m :: ms => l :: m :: ms

/-- The base name as the spec words it: the filename with the fixed
".md" extension stripped from the end (and only from the end). -/
def stripExtMd (name : List Char) : List Char :=
  if endsWithMd name then name.take (name.length - 3) else name

/-- Accumulator form of "remove every occurrence of the substring .md",
used by the amended claims; written independently of replaceMdEmpty. -/
def removeAllMdAux : List Char → List Char → List Char
  | acc, [] => acc.reverse
  | acc, [a] => acc.reverse ++ [a]
  | acc, [a, b] => acc.reverse ++ [a, b]
  | acc, a :: b :: c :: rest =>
    if a = '.' ∧ b = 'm' ∧ c = 'd' then removeAllMdAux acc rest
    else removeAllMdAux (a :: acc) (b :: c :: rest)

/-- Remove every occurrence of the substring ".md" (amended-spec
formulation). -/
def removeAllMd (s : List Char) : List Char := removeAllMdAux [] s

/-- Capitalize as claim C7 words it: uppercase the first letter of the
word and leave the remaining characters unchanged. -/
def capFirstOnly : List Char → List Char
  | [] => []
  | c :: cs => c.toUpper :: cs

/-- Title derivation as claim C7 words it: strip the fixed ".md"
extension, replace underscores with spaces, and capitalize the first
letter of every whitespace-separated word. -/
def titlePerClaim (filename : List Char) : List Char :=
  List.intercalate " ".data ((pySplitWs (replaceChar '_' ' ' (stripExtMd filename))).map capFirstOnly)

/-- Lowercase every character (spec-side recursion). -/
def lowerAll : List Char → List Char
  | [] => []
  | c :: cs => c.toLower :: lowerAll cs

/-- Capitalization as the amended claim C7 words it: uppercase the
first character, lowercase the rest. -/
def capWordSpec : List Char → List Char
  | [] => []
  | c :: cs => c.toUpper :: lowerAll cs

/-- Title derivation as the amended claim C7 words it: remove every
occurrence of ".md", replace underscores with spaces, capitalize each
whitespace-separated word (first char uppercased, rest lowercased) and
join the words with single spaces. -/
def titleAmendedSpec (filename : List Char) : List Char :=
  List.intercalate " ".data ((pySplitWs (replaceChar '_' ' ' (removeAllMd filename))).map capWordSpec)

/-- The content of Scenario 4 / claim C3. -/
def c3content : List Char :=
  "- A short bullet.\n* This second bullet line definitely exceeds twenty characters easily.\n".data

/-- A filename whose glob match ends in ".md" but which contains a
second ".md" occurrence, separating the two readings of claim C4. -/
def c4name : List Char := "blender.md.md".data

/-- A single bullet line of trimmed length 151 whose cleaned form has
length 149: the counterexample input for claim C5. -/
def c5content : List Char := '-' :: ' ' :: List.replicate 149 'a'

/-- A single bullet line whose cleaned form has length 160: witness
input for the amended claim C5. -/
def w5content : List Char := '*' :: ' ' :: List.replicate 160 'a'

/-- Witness content for claim C6: every line is a heading, short, or
empty. -/
def c6content : List Char := "# A heading line\nshort line\n\n   \n#another".data

/-- A filename separating extract_title from the claim C7 reading: the
inner ".md" is removed and the capital B is lowercased. -/
def c7name : List Char := "aB.md.md".data

/-- A 20-character bullet line: passes the length filter with its
marker, and yields an 18-character description. -/
def c10content : List Char := "- abcdefghijklmnopqr".data

/-- Sanity check: titles as in the source docstring. -/
theorem sanity_title : extract_title "custom_tool.md".data = "Custom Tool".data := by decide

/-- Sanity check: empty content falls back (Scenario 5). -/
theorem sanity_empty_fallback : extract_description "".data = fallbackDescription := by decide

/-- Sanity check: blender.md is an App Tool (Scenario 1). -/
theorem sanity_blender_category : determine_category "blender.md".data [] = "App Tools".data := by
  decide

/-- Sanity check: the stem drops only the final extension. -/
theorem sanity_stem : pathStem "custom_tool.md".data = "custom_tool".data := by decide

/-- Sanity check: Scenario 1 output path. -/
theorem sanity_blender_path :
    (convert_md_to_mdx
        [("blender.md".data, "# B\nThis line has more than twenty characters here.".data)]).map
      Prod.fst = ["app-tools/blender.mdx".data] := by decide

/-- The accumulator form agrees with the transcription of
s.replace(".md", ""). -/
theorem removeAllMdAux_eq :
    ∀ (n : Nat) (s : List Char), s.length ≤ n → ∀ acc : List Char,
      removeAllMdAux acc s = acc.reverse ++ replaceMdEmpty s := by
  intro n
  induction n with
  | zero =>
    intro s hs acc
    have hnil : s = [] := List.length_eq_zero.mp (Nat.le_zero.mp hs)
    subst hnil
    simp [removeAllMdAux, replaceMdEmpty]
  | succ n ih =>
    intro s hs acc
    rcases s with _ | ⟨a, _ | ⟨b, _ | ⟨c, rest⟩⟩⟩
    · simp [removeAllMdAux, replaceMdEmpty]
    · simp [removeAllMdAux, replaceMdEmpty]
    · simp [removeAllMdAux, replaceMdEmpty]
    · have hlen : rest.length + 3 ≤ n + 1 := by simpa using hs
      by_cases h : a = '.' ∧ b = 'm' ∧ c = 'd'
      · rw [show removeAllMdAux acc (a :: b :: c :: rest) = removeAllMdAux acc rest from by
            simp [removeAllMdAux, h]]
        rw [show replaceMdEmpty (a :: b :: c :: rest) = replaceMdEmpty rest from by
            simp [replaceMdEmpty, h]]
        exact ih rest (by omega) acc
      · rw [show removeAllMdAux acc (a :: b :: c :: rest)
              = removeAllMdAux (a :: acc) (b :: c :: rest) from by
            simp [removeAllMdAux, h]]
        rw [ih (b :: c :: rest) (by simp; omega) (a :: acc)]
        rw [show replaceMdEmpty (a :: b :: c :: rest)
              = a :: replaceMdEmpty (b :: c :: rest) from by
            simp [replaceMdEmpty, h]]
        simp

/-- removeAllMd computes the same base name as the source's
replace(".md", ""). -/
theorem removeAllMd_eq (s : List Char) : removeAllMd s = replaceMdEmpty s := by
  simpa [removeAllMd] using removeAllMdAux_eq s.length s le_rfl []

/-- The spec-side lowercase recursion is pointwise List.map
Char.toLower. -/
theorem lowerAll_eq_map (l : List Char) : lowerAll l = l.map Char.toLower := by
  induction l with
  | nil => rfl
  | cons c cs ih => simp [lowerAll, ih]

/-- The amended-spec capitalization agrees with the model of Python
str.capitalize. -/
theorem capWordSpec_eq : capWordSpec = pyCapitalize := by
  funext w
  cases w with
  | nil => rfl
  | cons c cs => simp [capWordSpec, pyCapitalize, lowerAll_eq_map]

/-- C8: determine_category ignores its content argument: the category
of a filename is the same for any two contents. -/
theorem claim_C8_content_independent (filename c1 c2 : List Char) :
    determine_category filename c1 = determine_category filename c2 := rfl

/-- C4 (counterexample): for the glob-matched filename
"blender.md.md" the code returns "App Tools" although the filename with
its extension stripped ("blender.md", under either the fixed-suffix or
the pathlib reading) is not in the allow-list, so the claimed
iff fails. -/
theorem claim_C4_counterexample :
    determine_category c4name [] = "App Tools".data ∧
    stripExtMd c4name ∉ app_tools ∧ pathStem c4name ∉ app_tools := by decide

/-- C4 (amended): category derivation returns "App Tools" if and only
if the filename with every occurrence of the substring ".md" removed is
one of the three allow-listed names (case-sensitively); every other
filename gets "System Tools". -/
theorem claim_C4_amended (filename content : List Char) :
    (determine_category filename content = "App Tools".data ↔ removeAllMd filename ∈ app_tools) ∧
    (determine_category filename content = "App Tools".data ∨
      determine_category filename content = "System Tools".data) := by
  rw [removeAllMd_eq]
  unfold determine_category
  by_cases h : replaceMdEmpty filename ∈ app_tools
  · simp [h]
  · simp [h]

/-- C7 (counterexample): on the filename "aB.md.md" the code removes
both occurrences of ".md" and lowercases the trailing letters of the
word, yielding "Ab", while the claim's reading (strip the extension,
capitalize only first letters) yields "AB.md". -/
theorem claim_C7_counterexample :
    extract_title c7name = "Ab".data ∧ titlePerClaim c7name = "AB.md".data ∧
    extract_title c7name ≠ titlePerClaim c7name := by decide

/-- C7 (amended): title derivation removes every occurrence of the
substring ".md" from the filename, replaces underscores with spaces,
maps each whitespace-separated word to its first character uppercased
followed by the remaining characters lowercased, and joins the words
with single spaces; it is a deterministic pure function of the filename
alone. -/
theorem claim_C7_amended (filename : List Char) :
    extract_title filename = titleAmendedSpec filename := by
  simp [extract_title, titleAmendedSpec, removeAllMd_eq, capWordSpec_eq]

/-- C10: the length filter of extract_description is applied before the
bullet marker is stripped: the 20-character line "- abcdefghijklmnopqr"
passes the filter, and the returned description is the 18-character
remainder after the marker is removed. -/
theorem claim_C10_premarker_length :
    lineSkipped c10content = false ∧ (pyStrip c10content).length = 20 ∧
    pyStartsWith "- ".data (pyStrip c10content) = true ∧
    extract_description c10content = "abcdefghijklmnopqr".data ∧
    (extract_description c10content).length = 18 := by decide

/-- C3 (counterexample): on Scenario 4's input the single produced
output path is "system-tools/custom_tool.mdx" (the underscore of the
stem is preserved), not the claimed "system-tools/custom-tool.mdx". -/
theorem claim_C3_counterexample :
    (convert_md_to_mdx [("custom_tool.md".data, c3content)]).map Prod.fst
      = ["system-tools/custom_tool.mdx".data] ∧
    "system-tools/custom_tool.mdx".data ≠ "system-tools/custom-tool.mdx".data := by decide

/-- C3 (amended): for input file custom_tool.md with Scenario 4's
content, the derived description is the second line with its leading
"* " stripped, the category is "System Tools", and the single output
path relative to the destination is system-tools/custom_tool.mdx. -/
theorem claim_C3_amended :
    extract_description c3content
      = "This second bullet line definitely exceeds twenty characters easily.".data ∧
    determine_category "custom_tool.md".data c3content = "System Tools".data ∧
    (convert_md_to_mdx [("custom_tool.md".data, c3content)]).map Prod.fst
      = ["system-tools/custom_tool.mdx".data] := by decide

/-- C2: a filename on the ignore list or the exclusion list produces no
output, whatever the content: the per-file conversion yields none and
the pipeline yields no file. -/
theorem claim_C2_skipped (name : List Char)
    (h : name ∈ IGNORE_FILES ∨ name ∈ EXCLUDED_TOOLS) (content : List Char) :
    convertFile name content = none ∧ convert_md_to_mdx [(name, content)] = [] := by
  have hf : convertFile name content = none := by
    rcases h with h | h
    · simp [convertFile, h]
    · by_cases hig : name ∈ IGNORE_FILES
      · simp [convertFile, hig]
      · simp [convertFile, hig, h]
  refine ⟨hf, ?_⟩
  by_cases hmd : endsWithMd name
  · simp [convert_md_to_mdx, hmd, hf]
  · simp [convert_md_to_mdx, hmd]

/-- C2 witness at the concrete ignored file kill_bash.md. -/
theorem claim_C2_witness :
    convertFile "kill_bash.md".data "any content".data = none ∧
    convert_md_to_mdx [("kill_bash.md".data, "any content".data)] = [] :=
  claim_C2_skipped "kill_bash.md".data (Or.inl (by decide)) "any content".data

/-- C1: a file whose name ends in ".md" and is on neither skip list
produces exactly one output, whose relative path is the category folder
(category lower-cased, spaces to hyphens) joined with the stem (original
extension removed) plus ".mdx". -/
theorem claim_C1_exactly_one (name content : List Char)
    (h1 : endsWithMd name = true) (h2 : name ∉ IGNORE_FILES) (h3 : name ∉ EXCLUDED_TOOLS) :
    convert_md_to_mdx [(name, content)] =
      [(categoryFolder (determine_category name content) ++ '/' :: (pathStem name ++ ".mdx".data),
        MDX_TEMPLATE_render (extract_title name) (extract_description content)
          (determine_category name content) content)] := by
  simp [convert_md_to_mdx, h1, convertFile, h2, h3]

/-- C1 witness at the concrete file notes.md. -/
theorem claim_C1_witness :
    convert_md_to_mdx [("notes.md".data, "hello".data)] =
      [(categoryFolder (determine_category "notes.md".data "hello".data) ++ '/' ::
          (pathStem "notes.md".data ++ ".mdx".data),
        MDX_TEMPLATE_render (extract_title "notes.md".data)
          (extract_description "hello".data)
          (determine_category "notes.md".data "hello".data) "hello".data)] :=
  claim_C1_exactly_one "notes.md".data "hello".data (by decide) (by decide) (by decide)

/-- Every result of the description loop has at most 150 characters. -/
theorem descLoop_length_le (L : List (List Char)) : (descLoop L).length ≤ 150 := by
  induction L with
  | nil => decide
  | cons raw rest ih =>
    by_cases h : lineSkipped raw
    · simpa [descLoop, h] using ih
    · simp only [descLoop, h, if_false, Bool.false_eq_true]
      unfold cleanDesc
      by_cases hl : 150 < (pyStrip (bulletStripped (pyStrip raw))).length
      · simp [hl, List.length_take]
      · simp [hl]
        omega

/-- C9: for every content the derived description has at most 150
characters. -/
theorem claim_C9_length_le (content : List Char) :
    (extract_description content).length ≤ 150 :=
  descLoop_length_le _

/-- allWs on the empty string. -/
theorem allWs_nil : allWs [] = true := rfl

/-- allWs unfolds on a cons cell. -/
theorem allWs_cons (c : Char) (cs : List Char) :
    allWs (c :: cs) = (isPyWs c && allWs cs) := rfl

/-- trimFront drops a leading whitespace character. -/
theorem trimFront_cons_true {c : Char} (h : isPyWs c = true) (cs : List Char) :
    trimFront (c :: cs) = trimFront cs := by
  simp [trimFront, h]

/-- trimFront stops at a non-whitespace character. -/
theorem trimFront_cons_false {c : Char} (h : isPyWs c = false) (cs : List Char) :
    trimFront (c :: cs) = c :: cs := by
  simp [trimFront, h]

/-- trimBack on a cons whose tail trims away, whitespace head. -/
theorem trimBack_cons_nil_ws {c : Char} {cs : List Char}
    (h1 : trimBack cs = []) (h2 : isPyWs c = true) : trimBack (c :: cs) = [] := by
  simp [trimBack, h1, h2]

/-- trimBack on a cons whose tail trims away, non-whitespace head. -/
theorem trimBack_cons_nil_not {c : Char} {cs : List Char}
    (h1 : trimBack cs = []) (h2 : isPyWs c = false) : trimBack (c :: cs) = [c] := by
  simp [trimBack, h1, h2]

/-- trimBack on a cons whose tail survives trimming. -/
theorem trimBack_cons_cons {c : Char} {cs : List Char} {m : Char} {ms : List Char}
    (h : trimBack cs = m :: ms) : trimBack (c :: cs) = c :: m :: ms := by
  simp [trimBack, h]

/-- splitNl starts a fresh line at a newline. -/
theorem splitNl_cons_newline (cs : List Char) : splitNl ('\n' :: cs) = [] :: splitNl cs := by
  simp [splitNl]

/-- splitNl extends the first line at a non-newline. -/
theorem splitNl_cons_ne {c : Char} (hn : c ≠ '\n') {cs : List Char} {hd : List Char}
    {tl : List (List Char)} (h : splitNl cs = hd :: tl) :
    splitNl (c :: cs) = (c :: hd) :: tl := by
  simp [splitNl, hn, h]

/-- Left-trimming is idempotent. -/
theorem trimFront_idem (l : List Char) : trimFront (trimFront l) = trimFront l := by
  induction l with
  | nil => rfl
  | cons c cs ih =>
    cases h : isPyWs c
    · rw [trimFront_cons_false h]
      exact trimFront_cons_false h cs
    · rw [trimFront_cons_true h]
      exact ih

/-- trimFront erases the string exactly when it is all whitespace. -/
theorem trimFront_eq_nil (l : List Char) : trimFront l = [] ↔ allWs l = true := by
  induction l with
  | nil => simp [trimFront, allWs]
  | cons c cs ih =>
    cases h : isPyWs c
    · rw [trimFront_cons_false h, allWs_cons, h]
      simp
    · rw [trimFront_cons_true h, allWs_cons, h, ih]
      simp

/-- trimBack erases the string exactly when it is all whitespace. -/
theorem trimBack_eq_nil (l : List Char) : trimBack l = [] ↔ allWs l = true := by
  induction l with
  | nil => simp [trimBack, allWs]
  | cons c cs ih =>
    cases htb : trimBack cs with
    | nil =>
      have hcs : allWs cs = true := ih.mp htb
      cases h : isPyWs c
      · rw [trimBack_cons_nil_not htb h, allWs_cons, h]
        simp
      · rw [trimBack_cons_nil_ws htb h, allWs_cons, h, hcs]
        simp
    | cons m ms =>
      have hcs : allWs cs = false := by
        cases hx : allWs cs
        · rfl
        · rw [ih.mpr hx] at htb; cases htb
      rw [trimBack_cons_cons htb, allWs_cons, hcs]
      simp

/-- Left-trimming does not change all-whitespaceness. -/
theorem allWs_trimFront (l : List Char) : allWs (trimFront l) = allWs l := by
  induction l with
  | nil => rfl
  | cons c cs ih =>
    cases h : isPyWs c
    · rw [trimFront_cons_false h]
    · rw [trimFront_cons_true h, ih, allWs_cons, h]
      simp

/-- pyStrip erases the string exactly when it is all whitespace. -/
theorem pyStrip_eq_nil (l : List Char) : pyStrip l = [] ↔ allWs l = true := by
  unfold pyStrip
  rw [trimBack_eq_nil, allWs_trimFront]

/-- Right-trimming is idempotent. -/
theorem trimBack_idem (l : List Char) : trimBack (trimBack l) = trimBack l := by
  induction l with
  | nil => rfl
  | cons c cs ih =>
    cases htb : trimBack cs with
    | nil =>
      cases h : isPyWs c
      · rw [trimBack_cons_nil_not htb h]
        exact trimBack_cons_nil_not rfl h
      · rw [trimBack_cons_nil_ws htb h]
        rfl
    | cons m ms =>
      have h2 : trimBack (m :: ms) = m :: ms := by rw [← htb, ih]
      rw [trimBack_cons_cons htb]
      exact trimBack_cons_cons h2

/-- The two one-sided trims commute. -/
theorem trimFront_trimBack_comm (l : List Char) :
    trimFront (trimBack l) = trimBack (trimFront l) := by
  induction l with
  | nil => rfl
  | cons c cs ih =>
    cases h : isPyWs c
    · rw [trimFront_cons_false h]
      cases htb : trimBack cs with
      | nil =>
        rw [trimBack_cons_nil_not htb h]
        exact trimFront_cons_false h []
      | cons m ms =>
        rw [trimBack_cons_cons htb]
        exact trimFront_cons_false h (m :: ms)
    · rw [trimFront_cons_true h]
      cases htb : trimBack cs with
      | nil =>
        rw [trimBack_cons_nil_ws htb h]
        have hcs : allWs cs = true := (trimBack_eq_nil cs).mp htb
        have h2 : trimBack (trimFront cs) = [] := by
          rw [trimBack_eq_nil, allWs_trimFront]; exact hcs
        rw [h2]
        rfl
      | cons m ms =>
        rw [trimBack_cons_cons htb]
        rw [trimFront_cons_true h, ← htb, ih]

/-- pyStrip is unaffected by a prior left trim. -/
theorem pyStrip_trimFront (l : List Char) : pyStrip (trimFront l) = pyStrip l := by
  unfold pyStrip
  rw [trimFront_idem]

/-- pyStrip is unaffected by a prior right trim. -/
theorem pyStrip_trimBack (l : List Char) : pyStrip (trimBack l) = pyStrip l := by
  unfold pyStrip
  calc trimBack (trimFront (trimBack l))
      = trimBack (trimBack (trimFront l)) := by rw [trimFront_trimBack_comm]
    _ = trimBack (trimFront l) := trimBack_idem _

/-- splitNl never returns the empty list of lines. -/
theorem splitNl_ne_nil (s : List Char) : splitNl s ≠ [] := by
  induction s with
  | nil => simp [splitNl]
  | cons c cs ih =>
    by_cases h : c = '\n'
    · subst h
      rw [splitNl_cons_newline]
      simp
    · cases hs : splitNl cs with
      | nil => exact absurd hs ih
      | cons l ls =>
        rw [splitNl_cons_ne h hs]
        simp

/-- Every line of an all-whitespace string is all whitespace. -/
theorem allWs_mem_splitNl : ∀ s : List Char, allWs s = true →
    ∀ l ∈ splitNl s, allWs l = true := by
  intro s
  induction s with
  | nil =>
    intro _ l hl
    simp [splitNl] at hl
    subst hl; rfl
  | cons c cs ih =>
    intro hw l hl
    rw [allWs_cons, Bool.and_eq_true] at hw
    obtain ⟨hc, hcs⟩ := hw
    by_cases h : c = '\n'
    · subst h
      rw [splitNl_cons_newline] at hl
      rcases List.mem_cons.mp hl with rfl | hl2
      · rfl
      · exact ih hcs l hl2
    · cases hs : splitNl cs with
      | nil => exact absurd hs (splitNl_ne_nil cs)
      | cons hd tl =>
        rw [splitNl_cons_ne h hs] at hl
        rcases List.mem_cons.mp hl with rfl | hl2
        · rw [allWs_cons, hc, ih hcs hd (by rw [hs]; exact List.mem_cons_self hd tl)]
          rfl
        · exact ih hcs l (by rw [hs]; exact List.mem_cons_of_mem hd hl2)

/-- If every line of a string is all whitespace, the string is. -/
theorem allWs_of_lines : ∀ s : List Char,
    (∀ l ∈ splitNl s, allWs l = true) → allWs s = true := by
  intro s
  induction s with
  | nil => intro _; rfl
  | cons c cs ih =>
    intro h
    by_cases hn : c = '\n'
    · subst hn
      have hcs : allWs cs = true := by
        apply ih
        intro l hl
        exact h l (by rw [splitNl_cons_newline]; exact List.mem_cons_of_mem _ hl)
      rw [allWs_cons, hcs]
      decide
    · cases hs : splitNl cs with
      | nil => exact absurd hs (splitNl_ne_nil cs)
      | cons hd tl =>
        have hsp : splitNl (c :: cs) = (c :: hd) :: tl := splitNl_cons_ne hn hs
        have hch : allWs (c :: hd) = true := h (c :: hd) (by rw [hsp]; exact List.mem_cons_self _ _)
        rw [allWs_cons, Bool.and_eq_true] at hch
        obtain ⟨hc, hhd⟩ := hch
        have hcs : allWs cs = true := by
          apply ih
          intro l hl
          rw [hs] at hl
          rcases List.mem_cons.mp hl with rfl | hl2
          · exact hhd
          · exact h l (by rw [hsp]; exact List.mem_cons_of_mem _ hl2)
        rw [allWs_cons, hc, hcs]
        rfl

/-- trimLinesFront drops a leading all-whitespace line. -/
theorem trimLinesFront_cons_ws {l : List Char} (h : allWs l = true)
    (ls : List (List Char)) : trimLinesFront (l :: ls) = trimLinesFront ls := by
  simp [trimLinesFront, h]

/-- trimLinesFront left-trims the first substantial line and stops. -/
theorem trimLinesFront_cons_not {l : List Char} (h : allWs l = false)
    (ls : List (List Char)) : trimLinesFront (l :: ls) = trimFront l :: ls := by
  simp [trimLinesFront, h]

/-- trimLinesBack on a cons whose tail vanishes, all-whitespace head. -/
theorem trimLinesBack_cons_nil_ws {l : List Char} {ls : List (List Char)}
    (h1 : trimLinesBack ls = []) (h2 : allWs l = true) : trimLinesBack (l :: ls) = [] := by
  simp [trimLinesBack, h1, h2]

/-- trimLinesBack on a cons whose tail vanishes, substantial head. -/
theorem trimLinesBack_cons_nil_not {l : List Char} {ls : List (List Char)}
    (h1 : trimLinesBack ls = []) (h2 : allWs l = false) :
    trimLinesBack (l :: ls) = [trimBack l] := by
  simp [trimLinesBack, h1, h2]

/-- trimLinesBack on a cons whose tail survives. -/
theorem trimLinesBack_cons_cons {l : List Char} {ls : List (List Char)} {m : List Char}
    {ms : List (List Char)} (h : trimLinesBack ls = m :: ms) :
    trimLinesBack (l :: ls) = l :: m :: ms := by
  simp [trimLinesBack, h]

/-- padNil is the identity on non-empty lists. -/
theorem padNil_ne {L : List (List Char)} (h : L ≠ []) : padNil L = L := by
  simp [padNil, h]

/-- trimLinesBack erases the line list exactly when every line is all
whitespace. -/
theorem trimLinesBack_eq_nil : ∀ L : List (List Char),
    trimLinesBack L = [] ↔ ∀ l ∈ L, allWs l = true := by
  intro L
  induction L with
  | nil => simp [trimLinesBack]
  | cons l ls ih =>
    cases hb : trimLinesBack ls with
    | nil =>
      have hls := ih.mp hb
      cases h : allWs l
      · rw [trimLinesBack_cons_nil_not hb h]
        constructor
        · intro hcontra; exact absurd hcontra (by simp)
        · intro hall
          rw [hall l (List.mem_cons_self _ _)] at h
          cases h
      · rw [trimLinesBack_cons_nil_ws hb h]
        constructor
        · intro _ x hx
          rcases List.mem_cons.mp hx with rfl | hx2
          · exact h
          · exact hls x hx2
        · intro _; rfl
    | cons m ms =>
      have hls : ¬ ∀ x ∈ ls, allWs x = true := fun hh => by rw [ih.mpr hh] at hb; cases hb
      rw [trimLinesBack_cons_cons hb]
      constructor
      · intro hcontra; exact absurd hcontra (by simp)
      · intro hall
        exfalso
        exact hls (fun x hx => hall x (List.mem_cons_of_mem _ hx))

/-- Stripping leading whole-string whitespace acts on the line list as
trimLinesFront. -/
theorem splitNl_trimFront : ∀ s : List Char,
    splitNl (trimFront s) = padNil (trimLinesFront (splitNl s)) := by
  intro s
  induction s with
  | nil => rfl
  | cons c cs ih =>
    cases h : isPyWs c
    · have hn : c ≠ '\n' := by
        intro he; subst he
        rw [show isPyWs '\n' = true from rfl] at h
        cases h
      cases hs : splitNl cs with
      | nil => exact absurd hs (splitNl_ne_nil cs)
      | cons hd tl =>
        rw [trimFront_cons_false h, splitNl_cons_ne hn hs]
        have hch : allWs (c :: hd) = false := by rw [allWs_cons, h]; rfl
        rw [trimLinesFront_cons_not hch, trimFront_cons_false h, padNil_ne (by simp)]
    · by_cases hn : c = '\n'
      · subst hn
        rw [trimFront_cons_true h, splitNl_cons_newline, ih]
        congr 1
      · cases hs : splitNl cs with
        | nil => exact absurd hs (splitNl_ne_nil cs)
        | cons hd tl =>
          rw [trimFront_cons_true h, ih, hs, splitNl_cons_ne hn hs]
          congr 1
          cases hh : allWs hd
          · have hch : allWs (c :: hd) = false := by rw [allWs_cons, h, hh]; rfl
            rw [trimLinesFront_cons_not hh, trimLinesFront_cons_not hch, trimFront_cons_true h]
          · have hch : allWs (c :: hd) = true := by rw [allWs_cons, h, hh]; rfl
            rw [trimLinesFront_cons_ws hh, trimLinesFront_cons_ws hch]

/-- Stripping trailing whole-string whitespace acts on the line list as
trimLinesBack. -/
theorem splitNl_trimBack : ∀ s : List Char,
    splitNl (trimBack s) = padNil (trimLinesBack (splitNl s)) := by
  intro s
  induction s with
  | nil => rfl
  | cons c cs ih =>
    cases htb : trimBack cs with
    | nil =>
      have hcs : allWs cs = true := (trimBack_eq_nil cs).mp htb
      have hlines : ∀ l ∈ splitNl cs, allWs l = true := allWs_mem_splitNl cs hcs
      have hlb : trimLinesBack (splitNl cs) = [] := (trimLinesBack_eq_nil _).mpr hlines
      cases h : isPyWs c
      · have hn : c ≠ '\n' := by
          intro he; subst he
          rw [show isPyWs '\n' = true from rfl] at h
          cases h
        rw [trimBack_cons_nil_not htb h]
        cases hs : splitNl cs with
        | nil => exact absurd hs (splitNl_ne_nil cs)
        | cons hd tl =>
          have hhd : allWs hd = true := hlines hd (by rw [hs]; exact List.mem_cons_self _ _)
          have htl : trimLinesBack tl = [] := (trimLinesBack_eq_nil _).mpr
            (fun x hx => hlines x (by rw [hs]; exact List.mem_cons_of_mem _ hx))
          have hch : allWs (c :: hd) = false := by rw [allWs_cons, h]; rfl
          have hbh : trimBack (c :: hd) = [c] :=
            trimBack_cons_nil_not ((trimBack_eq_nil hd).mpr hhd) h
          rw [splitNl_cons_ne hn hs, trimLinesBack_cons_nil_not htl hch, hbh,
            padNil_ne (by simp)]
          exact splitNl_cons_ne hn rfl
      · rw [trimBack_cons_nil_ws htb h]
        by_cases hn : c = '\n'
        · subst hn
          rw [splitNl_cons_newline, trimLinesBack_cons_nil_ws hlb allWs_nil]
          rfl
        · cases hs : splitNl cs with
          | nil => exact absurd hs (splitNl_ne_nil cs)
          | cons hd tl =>
            have hhd : allWs hd = true := hlines hd (by rw [hs]; exact List.mem_cons_self _ _)
            have htl : trimLinesBack tl = [] := (trimLinesBack_eq_nil _).mpr
              (fun x hx => hlines x (by rw [hs]; exact List.mem_cons_of_mem _ hx))
            have hch : allWs (c :: hd) = true := by rw [allWs_cons, h, hhd]; rfl
            rw [splitNl_cons_ne hn hs, trimLinesBack_cons_nil_ws htl hch]
            rfl
    | cons m ms =>
      have hne : trimBack cs ≠ [] := by rw [htb]; simp
      have hcs : allWs cs = false := by
        cases hx : allWs cs
        · rfl
        · exact absurd ((trimBack_eq_nil cs).mpr hx) hne
      rw [trimBack_cons_cons htb]
      cases hs : splitNl cs with
      | nil => exact absurd hs (splitNl_ne_nil cs)
      | cons hd tl =>
        have hlb : trimLinesBack (hd :: tl) ≠ [] := by
          rw [Ne, trimLinesBack_eq_nil]
          intro hall
          have hws : allWs cs = true := allWs_of_lines cs (by rw [hs]; exact hall)
          rw [hws] at hcs; cases hcs
        have ih2 : splitNl (m :: ms) = trimLinesBack (hd :: tl) := by
          rw [← htb, ih, hs, padNil_ne hlb]
        by_cases hn : c = '\n'
        · subst hn
          rw [splitNl_cons_newline, splitNl_cons_newline, ih2, hs]
          cases hq : trimLinesBack (hd :: tl) with
          | nil => exact absurd hq hlb
          | cons p ps =>
            have hq3 : trimLinesBack (([] : List Char) :: hd :: tl) = [] :: p :: ps :=
              trimLinesBack_cons_cons hq
            rw [hq3, padNil_ne (by simp)]
        · rw [splitNl_cons_ne hn hs]
          cases hq : trimLinesBack tl with
          | nil =>
            cases hh : allWs hd
            · have hq2 : trimLinesBack (hd :: tl) = [trimBack hd] :=
                trimLinesBack_cons_nil_not hq hh
              have htbhd : trimBack hd ≠ [] := by
                rw [Ne, trimBack_eq_nil, hh]; simp
              cases h5 : trimBack hd with
              | nil => exact absurd h5 htbhd
              | cons q qs =>
                have h6 : splitNl (m :: ms) = [q :: qs] := by rw [ih2, hq2, h5]
                have hch : allWs (c :: hd) = false := by rw [allWs_cons, hh]; simp
                have h7 : trimBack (c :: hd) = c :: q :: qs := trimBack_cons_cons h5
                rw [splitNl_cons_ne hn h6, trimLinesBack_cons_nil_not hq hch, h7,
                  padNil_ne (by simp)]
            · exact absurd (trimLinesBack_cons_nil_ws hq hh) hlb
          | cons q qs =>
            have hq2 : trimLinesBack (hd :: tl) = hd :: q :: qs := trimLinesBack_cons_cons hq
            have h6 : splitNl (m :: ms) = hd :: q :: qs := by rw [ih2, hq2]
            rw [splitNl_cons_ne hn h6, trimLinesBack_cons_cons hq, padNil_ne (by simp)]

/-- extract_description seen through the line-list lemmas: the loop
runs on the raw lines, adjusted by trimLinesFront and trimLinesBack. -/
theorem extract_description_eq_loop (content : List Char) :
    extract_description content
      = descLoop (padNil (trimLinesBack (padNil (trimLinesFront (splitNl content))))) := by
  unfold extract_description pyStrip
  rw [splitNl_trimBack, splitNl_trimFront]

/-- The loop returns the fallback when every line is skipped. -/
theorem descLoop_all_skipped : ∀ L : List (List Char),
    (∀ l ∈ L, lineSkipped l = true) → descLoop L = fallbackDescription := by
  intro L
  induction L with
  | nil => intro _; rfl
  | cons raw rest ih =>
    intro h
    rw [show descLoop (raw :: rest) = descLoop rest from by
      simp [descLoop, h raw (List.mem_cons_self _ _)]]
    exact ih (fun l hl => h l (List.mem_cons_of_mem _ hl))

/-- Skipped lines at the front of the loop are dropped. -/
theorem descLoop_append_skipped : ∀ (pre rest : List (List Char)),
    (∀ x ∈ pre, lineSkipped x = true) → descLoop (pre ++ rest) = descLoop rest := by
  intro pre
  induction pre with
  | nil => intro rest _; rfl
  | cons p ps ih =>
    intro rest h
    rw [List.cons_append]
    rw [show descLoop (p :: (ps ++ rest)) = descLoop (ps ++ rest) from by
      simp [descLoop, h p (List.mem_cons_self _ _)]]
    exact ih rest (fun x hx => h x (List.mem_cons_of_mem _ hx))

/-- The loop stops at the first unskipped line. -/
theorem descLoop_cons_active (l : List Char) (rest : List (List Char))
    (h : lineSkipped l = false) : descLoop (l :: rest) = cleanDesc (pyStrip l) := by
  simp [descLoop, h]

/-- lineSkipped only depends on the stripped line. -/
theorem lineSkipped_congr {a b : List Char} (h : pyStrip a = pyStrip b) :
    lineSkipped a = lineSkipped b := by
  simp only [lineSkipped, h]

/-- Members of trimLinesFront strip like members of the input. -/
theorem mem_trimLinesFront : ∀ (L : List (List Char)) (x : List Char),
    x ∈ trimLinesFront L → ∃ y ∈ L, pyStrip x = pyStrip y := by
  intro L
  induction L with
  | nil => intro x hx; simp [trimLinesFront] at hx
  | cons l ls ih =>
    intro x hx
    cases h : allWs l
    · rw [trimLinesFront_cons_not h] at hx
      rcases List.mem_cons.mp hx with rfl | hx2
      · exact ⟨l, List.mem_cons_self _ _, pyStrip_trimFront l⟩
      · exact ⟨x, List.mem_cons_of_mem _ hx2, rfl⟩
    · rw [trimLinesFront_cons_ws h] at hx
      obtain ⟨y, hy, he⟩ := ih x hx
      exact ⟨y, List.mem_cons_of_mem _ hy, he⟩

/-- Members of trimLinesBack strip like members of the input. -/
theorem mem_trimLinesBack : ∀ (L : List (List Char)) (x : List Char),
    x ∈ trimLinesBack L → ∃ y ∈ L, pyStrip x = pyStrip y := by
  intro L
  induction L with
  | nil => intro x hx; simp [trimLinesBack] at hx
  | cons l ls ih =>
    intro x hx
    cases hb : trimLinesBack ls with
    | nil =>
      cases h : allWs l
      · rw [trimLinesBack_cons_nil_not hb h] at hx
        rcases List.mem_cons.mp hx with rfl | hx2
        · exact ⟨l, List.mem_cons_self _ _, pyStrip_trimBack l⟩
        · cases hx2
      · rw [trimLinesBack_cons_nil_ws hb h] at hx
        cases hx
    | cons m ms =>
      rw [trimLinesBack_cons_cons hb] at hx
      rcases List.mem_cons.mp hx with rfl | hx2
      · exact ⟨x, List.mem_cons_self _ _, rfl⟩
      · obtain ⟨y, hy, he⟩ := ih x (by rw [hb]; exact hx2)
        exact ⟨y, List.mem_cons_of_mem _ hy, he⟩

/-- Members of padNil are the empty line or members of the input. -/
theorem mem_padNil (L : List (List Char)) (x : List Char)
    (hx : x ∈ padNil L) : x = [] ∨ x ∈ L := by
  by_cases h : L = []
  · subst h
    simp [padNil] at hx
    exact Or.inl hx
  · rw [padNil_ne h] at hx
    exact Or.inr hx

/-- The empty line is skipped. -/
theorem lineSkipped_nil : lineSkipped ([] : List Char) = true := by decide

/-- Stripping never uncovers characters: a non-whitespace head
survives pyStrip. -/
theorem pyStrip_cons_not_ws (c : Char) (rest : List Char) (h : isPyWs c = false) :
    ∃ t, pyStrip (c :: rest) = c :: t := by
  unfold pyStrip
  rw [trimFront_cons_false h]
  cases htb : trimBack rest with
  | nil => exact ⟨[], trimBack_cons_nil_not htb h⟩
  | cons m ms => exact ⟨m :: ms, trimBack_cons_cons htb⟩

/-- A line that is empty, starts with "#", or has a stripped length
under 20 is skipped by the loop. -/
theorem lineSkipped_of_raw (l : List Char)
    (h : l = [] ∨ pyStartsWith "#".data l = true ∨ (pyStrip l).length < 20) :
    lineSkipped l = true := by
  rcases h with rfl | h | h
  · exact lineSkipped_nil
  · cases l with
    | nil => simp [pyStartsWith, chopLead] at h
    | cons c rest =>
      have hc : c = '#' := by
        by_cases hcc : '#' = c
        · exact hcc.symm
        · simp [pyStartsWith, chopLead, hcc] at h
      subst hc
      obtain ⟨t, ht⟩ := pyStrip_cons_not_ws '#' rest (by decide)
      simp [lineSkipped, ht, pyStartsWith, chopLead]
  · simp [lineSkipped, h]

/-- C6: whenever every line of the content is empty, begins with the
heading marker "#", or has trimmed length under 20 characters
(including the empty content), extract_description returns the fixed
fallback string. -/
theorem claim_C6_fallback (content : List Char)
    (h : ∀ l ∈ splitNl content,
        l = [] ∨ pyStartsWith "#".data l = true ∨ (pyStrip l).length < 20) :
    extract_description content = fallbackDescription := by
  rw [extract_description_eq_loop]
  apply descLoop_all_skipped
  intro x hx
  rcases mem_padNil _ _ hx with rfl | hx1
  · exact lineSkipped_nil
  · obtain ⟨y, hy1, hy2⟩ := mem_trimLinesBack _ _ hx1
    rcases mem_padNil _ _ hy1 with rfl | hy3
    · rw [lineSkipped_congr hy2]
      exact lineSkipped_nil
    · obtain ⟨z, hz1, hz2⟩ := mem_trimLinesFront _ _ hy3
      rw [lineSkipped_congr (hy2.trans hz2)]
      exact lineSkipped_of_raw z (h z hz1)

/-- C6 witness: a content whose lines are a heading, a short line,
empty and blank lines, and a second heading. -/
theorem claim_C6_witness : extract_description c6content = fallbackDescription :=
  claim_C6_fallback c6content (by decide)

/-- trimLinesFront keeps a decomposition into skipped lines, the first
substantial line, and a tail. -/
theorem trimLinesFront_decomp : ∀ (pre : List (List Char)) (l : List Char)
    (post : List (List Char)), allWs l = false →
    (∀ x ∈ pre, lineSkipped x = true) →
    ∃ pre2 l2, trimLinesFront (pre ++ l :: post) = pre2 ++ l2 :: post ∧
      (∀ x ∈ pre2, lineSkipped x = true) ∧ pyStrip l2 = pyStrip l := by
  intro pre
  induction pre with
  | nil =>
    intro l post hl _
    refine ⟨[], trimFront l, ?_, by simp, pyStrip_trimFront l⟩
    rw [List.nil_append, List.nil_append, trimLinesFront_cons_not hl]
  | cons p ps ih =>
    intro l post hl hpre
    cases hp : allWs p
    · refine ⟨trimFront p :: ps, l, ?_, ?_, rfl⟩
      · rw [List.cons_append, trimLinesFront_cons_not hp, List.cons_append]
      · intro x hx
        rcases List.mem_cons.mp hx with rfl | hx2
        · rw [lineSkipped_congr (pyStrip_trimFront p)]
          exact hpre p (List.mem_cons_self _ _)
        · exact hpre x (List.mem_cons_of_mem _ hx2)
    · obtain ⟨pre2, l2, he, hsk, hp2⟩ :=
        ih l post hl (fun x hx => hpre x (List.mem_cons_of_mem _ hx))
      refine ⟨pre2, l2, ?_, hsk, hp2⟩
      rw [List.cons_append, trimLinesFront_cons_ws hp, he]

/-- trimLinesBack keeps the prefix before a substantial line intact and
only right-trims at the end. -/
theorem trimLinesBack_decomp : ∀ (pre : List (List Char)) (l : List Char)
    (post : List (List Char)), allWs l = false →
    ∃ l2 post2, trimLinesBack (pre ++ l :: post) = pre ++ l2 :: post2 ∧
      pyStrip l2 = pyStrip l := by
  intro pre
  induction pre with
  | nil =>
    intro l post hl
    cases hq : trimLinesBack post with
    | nil =>
      refine ⟨trimBack l, [], ?_, pyStrip_trimBack l⟩
      rw [List.nil_append, List.nil_append, trimLinesBack_cons_nil_not hq hl]
    | cons m ms =>
      refine ⟨l, m :: ms, ?_, rfl⟩
      rw [List.nil_append, List.nil_append, trimLinesBack_cons_cons hq]
  | cons p ps ih =>
    intro l post hl
    obtain ⟨l2, post2, he, hp2⟩ := ih l post hl
    cases hq : trimLinesBack (ps ++ l :: post) with
    | nil =>
      rw [hq] at he
      exact absurd he.symm (by simp)
    | cons m ms =>
      refine ⟨l2, post2, ?_, hp2⟩
      have h2 : trimLinesBack (p :: (ps ++ l :: post)) = p :: m :: ms :=
        trimLinesBack_cons_cons hq
      rw [List.cons_append, h2, ← hq, he, List.cons_append]

/-- C5 (amended): whenever the first line of the content passing the
filters (non-empty, no leading "#", trimmed length at least 20) has,
after bullet-marker stripping and re-trimming, more than 150
characters, extract_description returns exactly 150 characters: the
first 147 characters of that cleaned line followed by "...". -/
theorem claim_C5_truncation (content : List Char) (pre : List (List Char))
    (l : List Char) (post : List (List Char))
    (h1 : splitNl content = pre ++ l :: post)
    (h2 : ∀ x ∈ pre, lineSkipped x = true)
    (h3 : lineSkipped l = false)
    (h4 : 150 < (pyStrip (bulletStripped (pyStrip l))).length) :
    extract_description content
      = (pyStrip (bulletStripped (pyStrip l))).take 147 ++ "...".data ∧
    (extract_description content).length = 150 ∧
    (extract_description content).drop 147 = "...".data := by
  have hstrip_ne : pyStrip l ≠ [] := by
    intro hh
    rw [show lineSkipped l = true from by simp [lineSkipped, hh]] at h3
    cases h3
  have hl : allWs l = false := by
    cases hx : allWs l
    · rfl
    · exact absurd ((pyStrip_eq_nil l).mpr hx) hstrip_ne
  obtain ⟨pre2, l2, he1, hs2, hp2⟩ := trimLinesFront_decomp pre l post hl h2
  have hl2 : allWs l2 = false := by
    cases hx : allWs l2
    · rfl
    · exact absurd (hp2 ▸ (pyStrip_eq_nil l2).mpr hx) hstrip_ne
  obtain ⟨l3, post3, he2, hp3⟩ := trimLinesBack_decomp pre2 l2 post hl2
  have hmain : extract_description content = cleanDesc (pyStrip l) := by
    rw [extract_description_eq_loop, h1, he1,
      padNil_ne (show pre2 ++ l2 :: post ≠ [] by simp), he2,
      padNil_ne (show pre2 ++ l3 :: post3 ≠ [] by simp),
      descLoop_append_skipped pre2 _ hs2,
      descLoop_cons_active l3 post3 (by rw [lineSkipped_congr (hp3.trans hp2)]; exact h3),
      hp3, hp2]
  have hform : extract_description content
      = (pyStrip (bulletStripped (pyStrip l))).take 147 ++ "...".data := by
    rw [hmain]
    unfold cleanDesc
    rw [if_pos h4]
  have htk : ((pyStrip (bulletStripped (pyStrip l))).take 147).length = 147 := by
    rw [List.length_take]
    omega
  refine ⟨hform, ?_, ?_⟩
  · rw [hform, List.length_append, htk]
    rfl
  · rw [hform]
    nth_rewrite 1 [← htk]
    rw [List.drop_left]

/-- C5 (counterexample): the single-line content "- " followed by 149
letters has a first qualifying line of trimmed length 151 (more than
150), yet the derived description has length 149, not 150: the
truncation threshold is tested only after the bullet marker is
stripped. -/
theorem claim_C5_counterexample :
    splitNl c5content = [c5content] ∧ lineSkipped c5content = false ∧
    150 < (pyStrip c5content).length ∧
    (extract_description c5content).length = 149 := by decide

/-- C5 witness: a bullet line whose cleaned form has 160 characters is
truncated to its first 147 characters plus "...". -/
theorem claim_C5_witness :
    extract_description w5content
      = (pyStrip (bulletStripped (pyStrip w5content))).take 147 ++ "...".data ∧
    (extract_description w5content).length = 150 ∧
    (extract_description w5content).drop 147 = "...".data :=
  claim_C5_truncation w5content [] w5content [] (by decide) (by decide) (by decide) (by decide)
